import Mathlib

/-!
Verification of the `atomic_data` repository: a shallow embedding of the
multi-word lock-free cell `atomic_data<T0, N0>` (src/samples/atomic_data.h),
of the earlier variant in src/atomic_data.h, and of the linked list
`atomic_list<T0, N0>` built on top of the cell (src/unnamed/part_001).

Modelling conventions:
* C++ `unsigned` values are `Nat`s kept below `U = 2^32`; every arithmetic
  update takes `% U`, matching unsigned wrap-around.
* Pointers to the pre-allocated `T0` slots are slot identifiers (`Nat`);
  slot contents live in a total map `store : Nat → T`.
* The two usage counters `counters[2]` are a map `Bool → Nat`; the C++
  index `counter_index` (0 or 1, from the comparison
  `(queue_right % array_size) < queue_size`) is the `Bool` directly.
* Each call is modelled in its own sequential steps (other threads frozen);
  a weak compare-exchange whose expected value matches may still fail
  spuriously, which an oracle Boolean decides.
* A user functor `fn` mutating the slot and returning `bool`, possibly
  throwing, is a function `T → Option (T × Bool)`; `none` models a throw.
-/

namespace AtomicData

/-- Width of C++ `unsigned int`: 2^32. -/
def U : Nat := 4294967296

/-- State of the cell together with its per-type recycle queue
(`atomic_data<T0, N0>` static members plus the `data` pointer).
`ring p` is `queue[p]` (a slot id), `left`/`right` are the queue positions,
`counters` is `counter_usage.counters`, `current` is the `data` pointer and
`store` gives each slot's contents. -/
structure CellState (T : Type) where
  ring : Nat → Nat
  left : Nat
  right : Nat
  counters : Bool → Nat
  current : Nat
  store : Nat → T

/-- The index computation `counter_t::counter_index`:
`( queue_right % array_size ) < queue_size`, with `array_size = 2*N`.
The C++ `uint` result 1/0 is the `Bool` itself. -/
def counter_index (N queue_right : Nat) : Bool :=
  decide (queue_right % (2 * N) < N)

/-- The test `counter_t::is_used`: the counter of the other phase,
`counters[ 1 - counter_index( queue_right ) ]`, is still nonzero. -/
def is_used (N queue_right : Nat) (counters : Bool → Nat) : Bool :=
  decide (0 < counters (! counter_index N queue_right))

/-- Construction of a `counter_guard` with ticket `tick = right.load()`:
`counter_usage.inc( queue_right )`, a `fetch_add(1)` on the phase counter. -/
def cg_inc {T : Type} (N tick : Nat) (s : CellState T) : CellState T :=
  { s with counters := fun b =>
      if b = counter_index N tick then (s.counters b + 1) % U else s.counters b }

/-- Destruction of a `counter_guard` with ticket `tick`:
`counter_usage.dec( queue_right )`, a `fetch_sub(1)` on the phase counter. -/
def cg_dec {T : Type} (N tick : Nat) (s : CellState T) : CellState T :=
  { s with counters := fun b =>
      if b = counter_index N tick then (s.counters b + (U - 1)) % U else s.counters b }

/-- Body of `deallocate_guard::~deallocate_guard`:
`queue[ right.add( 1 ) % array_size ] = data` — store the slot at the old
`right` position and advance `right` (the trailing release fence has no
effect in the sequential model). -/
def q_release {T : Type} (N slot : Nat) (s : CellState T) : CellState T :=
  { s with
      ring := fun p => if p = s.right % (2 * N) then slot else s.ring p,
      right := (s.right + 1) % U }

/-- The function `check_barrier( queue_left, queue_right )` of
src/samples/atomic_data.h lines 166-187.  The subtraction
`queue_right - queue_left` is unsigned, i.e. `(R + (U - L)) % U` for
operands below `U`. -/
def check_barrier (N queue_left queue_right : Nat) (counters : Bool → Nat) : Bool :=
  if queue_left % N = 0 then
    if (queue_right + (U - queue_left)) % U < N then false
    else if is_used N queue_right counters then false
    else true
  else true

/-- Reason a call of `update_weak` returned `false` (the spec's
QueueEmpty / AtBarrier / CasLost / UserVetoed). -/
inductive FailReason where
  | queueEmpty
  | atBarrier
  | casLost
  | vetoed
deriving DecidableEq, Repr

/-- Outcome of one `update_weak` call: returned `true`, returned `false`
for one of the four reasons, or the user functor threw. -/
inductive UWResult where
  | success
  | failure (r : FailReason)
  | thrown
deriving DecidableEq, Repr

/-- Oracle deciding the two weak CAS operations of `update_weak`; in the
sequential model the expected value always matches, but a weak
compare-exchange may still fail spuriously. -/
structure UWOracle where
  cas_left : Bool
  cas_data : Bool

/-- The method `update_weak( fn )` of src/samples/atomic_data.h lines
121-162, one call executed in its own sequential steps.
Steps: snapshot `left`/`right`; queue-empty test; `check_barrier`; CAS on
`left`; read `data_new` (the slot at `queue[left % array_size]`) and
`data_old` (= `data`); construct `deallocate_guard` (whose `counter_guard`
increments the phase counter for the current `right`); copy
`*data_new = *data_old`; run `fn`; publish CAS on `data`; the guard's
destructor returns a slot to the queue and decrements the counter on every
exit path. -/
def update_weak {T : Type} (N : Nat) (f : T → Option (T × Bool)) (o : UWOracle)
    (s : CellState T) : UWResult × CellState T :=
  let queue_left := s.left
  let queue_right := s.right
  if queue_left = queue_right then (.failure .queueEmpty, s)
  else if check_barrier N queue_left queue_right s.counters = false then
    (.failure .atBarrier, s)
  else if o.cas_left = false then (.failure .casLost, s)
  else
    let s1 : CellState T := { s with left := (queue_left + 1) % U }
    let data_new := s1.ring (queue_left % (2 * N))
    let data_old := s1.current
    let tick := s1.right
    let s2 := cg_inc N tick s1
    let s3 : CellState T :=
      { s2 with store := fun p => if p = data_new then s2.store data_old else s2.store p }
    match f (s3.store data_new) with
    | none => (.thrown, cg_dec N tick (q_release N data_new s3))
    | some (t1, ok) =>
      let s4 : CellState T :=
        { s3 with store := fun p => if p = data_new then t1 else s3.store p }
      if ok = false then (.failure .vetoed, cg_dec N tick (q_release N data_new s4))
      else if o.cas_data = false then
        (.failure .casLost, cg_dec N tick (q_release N data_new s4))
      else
        (.success, cg_dec N tick (q_release N data_old { s4 with current := data_new }))

/-- The method `read( fn )` of src/samples/atomic_data.h lines 106-110:
construct a `counter_guard` (ticket = current `right`), apply `fn` to the
loaded `data` pointer, destruct the guard.  No loop of any kind. -/
def cell_read {T R : Type} (N : Nat) (f : T → R) (s : CellState T) : R × CellState T :=
  let tick := s.right
  let s1 := cg_inc N tick s
  (f (s1.store s1.current), cg_dec N tick s1)

/-- Initial state from `init_static::init_static` and the constructor:
`N` preloaded slots (ids `1..N` at positions `0..N-1`; positions `N..2N-1`
are the C++ null pointers, represented by id 0 and never read before being
overwritten), `left = 0`, `right = N`, both counters zero; `current` is the
separate slot id 0 holding the constructor's object `t0`; the preloaded
slots hold the default value `d`. -/
def init_state {T : Type} (N : Nat) (t0 d : T) : CellState T :=
  { ring := fun p => if p % (2 * N) < N then p % (2 * N) + 1 else 0
    left := 0
    right := N
    counters := fun _ => 0
    current := 0
    store := fun i => if i = 0 then t0 else d }

/-- State after an `update_weak` call that allocated a slot and then
failed (functor threw, functor vetoed, or the publish CAS lost): the
allocated slot `queue[left % array_size]` is stored back at the old
`right` position, both indices advance, the usage counter of the ticket
phase is incremented then decremented, `current` is untouched, and the
allocated slot's contents end as `w` (the copied value, possibly further
mutated by the functor). -/
def uw_fail_state {T : Type} (N : Nat) (s : CellState T) (w : T) : CellState T :=
  { ring := fun p => if p = s.right % (2 * N) then s.ring (s.left % (2 * N)) else s.ring p
    left := (s.left + 1) % U
    right := (s.right + 1) % U
    counters := fun b => if b = counter_index N s.right
      then (s.counters b + 1 + (U - 1)) % U else s.counters b
    current := s.current
    store := fun p => if p = s.ring (s.left % (2 * N)) then w else s.store p }

/-- State after a successful `update_weak` call: `current` moved to the
allocated slot (which holds the functor's result `t1`), the displaced old
slot stored at the old `right` position, both indices advanced, the usage
counter incremented then decremented. -/
def uw_success_state {T : Type} (N : Nat) (s : CellState T) (t1 : T) : CellState T :=
  { ring := fun p => if p = s.right % (2 * N) then s.current else s.ring p
    left := (s.left + 1) % U
    right := (s.right + 1) % U
    counters := fun b => if b = counter_index N s.right
      then (s.counters b + 1 + (U - 1)) % U else s.counters b
    current := s.ring (s.left % (2 * N))
    store := fun p => if p = s.ring (s.left % (2 * N)) then t1 else s.store p }

/-- States reachable from the freshly constructed cell by any sequence of
complete `read` and `update_weak` calls (each call's steps are its own; the
state effect of `read` does not depend on the functor or its result type,
so the functor is taken at result type `Unit`). -/
inductive Reach {T : Type} (N : Nat) (t0 d : T) : CellState T → Prop where
  | init : Reach N t0 d (init_state N t0 d)
  | step_read (s : CellState T) (f : T → Unit) :
      Reach N t0 d s → Reach N t0 d (cell_read N f s).2
  | step_update (s : CellState T) (f : T → Option (T × Bool)) (o : UWOracle) :
      Reach N t0 d s → Reach N t0 d (update_weak N f o s).2

/-! The earlier variant src/atomic_data.h.  Its `read` (lines 52-61) first
spins on the `no_reading` signal, which a writer raises while it sits at
the synchronization barrier (`sync`, lines 113-134, increments `no_reading`
through a `counter_guard` before testing `counter_usage`).  Only the fields
that `read` touches are modelled. -/

/-- State of the older `atomic_data` variant (src/atomic_data.h) as seen by
`read`: the `no_reading` signal, the single usage counter `counter_usage`,
and the published value `*data`. -/
structure OldCellState (T : Type) where
  no_reading : Nat
  counter_usage : Nat
  data : T

/-- A writer entering `sync` (src/atomic_data.h line 119) constructs
`counter_guard counter{no_reading}`, incrementing the reader-blocking
signal. -/
def old_sync_signal {T : Type} (s : OldCellState T) : OldCellState T :=
  { s with no_reading := (s.no_reading + 1) % U }

/-- The spin loop opening `read` in src/atomic_data.h:
`while( no_reading.load() ) std::this_thread::yield();` executed for `fuel`
own steps of the reader; other threads are frozen, so the state never
changes inside the loop.  Returns `true` when the loop exited. -/
def old_read_wait {T : Type} : Nat → OldCellState T → Bool
  | 0, _ => false
  | Nat.succ n, s => if s.no_reading ≠ 0 then old_read_wait n s else true

/-- The method `read( fn )` of src/atomic_data.h lines 52-61 with a budget
of `fuel` own steps for the opening spin loop: spin on `no_reading`, then
`counter_guard` increment, `fn( data.load() )`, guard decrement.  `none`
means the call had not completed within its step budget. -/
def old_read {T R : Type} (fuel : Nat) (f : T → R) (s : OldCellState T) :
    Option R × OldCellState T :=
  if old_read_wait fuel s = true then
    let s1 : OldCellState T := { s with counter_usage := (s.counter_usage + 1) % U }
    (some (f s1.data), { s1 with counter_usage := (s1.counter_usage + (U - 1)) % U })
  else (none, s)

end AtomicData

namespace AtomicList

/-- A list node (src/unnamed/part_001 lines 87-92): the logical-delete
lock, the sticky tombstone, the payload and the successor pointer
(`node_ptr`, `none` = null).  Cell ids stand for the
`shared_ptr<atomic_data<node>>` targets. -/
structure Node (T : Type) where
  locked : Bool
  deleted : Bool
  data : T
  next : Option Nat
deriving DecidableEq, Repr

/-- Heap of list cells: total map from cell id to the node its
`atomic_data<node>` currently publishes, plus the next unused id for
`new atomic_node{...}` allocations. -/
structure Heap (T : Type) where
  cells : Nat → Node T
  fresh : Nat

/-- Publish a new node value in cell `id` (a successful `update_weak`
commit on that cell). -/
def set_cell {T : Type} (h : Heap T) (id : Nat) (n : Node T) : Heap T :=
  { h with cells := fun i => if i = id then n else h.cells i }

/-- Oracle for one `update_weak` call on a node cell: `run` is whether the
queue machinery reached the user functor (queue non-empty, barrier passed,
`left` CAS won), `commit` is whether the publish CAS succeeded after the
functor returned `true`. -/
structure WOracle where
  run : Bool
  commit : Bool

/-- The method `insert_after_weak( pos, value )` of src/unnamed/part_001
lines 165-186: under `update_weak` on the cell at `pos`, veto if the node
is locked, otherwise allocate a new node
`{ false, false, value, node0->next }` in a fresh cell and set
`node0->next` to it.  Returns the iterator (`some` new cell id) on
success, the empty iterator otherwise.  On a failed commit the allocated
cell stays in the heap but is unreachable (in C++ the `shared_ptr` frees
it). -/
def insert_after_weak {T : Type} (h : Heap T) (pos : Nat) (v : T) (o : WOracle) :
    Option Nat × Heap T :=
  if o.run = false then (none, h)
  else
    let node0 := h.cells pos
    if node0.locked then (none, h)
    else
      let id_new := h.fresh
      let h1 : Heap T :=
        { cells := fun i => if i = id_new then ⟨false, false, v, node0.next⟩ else h.cells i
          fresh := h.fresh + 1 }
      if o.commit = false then (none, h1)
      else (some id_new, set_cell h1 pos { node0 with next := some id_new })

/-- The method `push_front( value )` of src/unnamed/part_001 lines 160-163:
`insert_after_weak` at the head sentinel. -/
def push_front {T : Type} (h : Heap T) (head : Nat) (v : T) (o : WOracle) :
    Option Nat × Heap T :=
  insert_after_weak h head v o

/-- The method `erase_after_weak( pos )` of src/unnamed/part_001 lines
195-255, the two-step delete.  Outer `update_weak` on `pos`: veto if
locked or no successor; inner `update_weak` on the victim cell locks it
and reads its successor; on inner failure the outer functor vetoes.  The
outer publish CAS compares the `data` pointer of the cell at `pos`, so it
can only succeed when the nested commit was on a different cell
(`pos ≠ victim`); when the outer call fails after the victim was locked, a
strong `update` resets `locked`; when it succeeds, a strong `update` sets
`deleted` and the victim's iterator is returned. -/
def erase_after_weak {T : Type} (h : Heap T) (pos : Nat) (o_outer o_inner : WOracle) :
    Option Nat × Heap T :=
  if o_outer.run = false then (none, h)
  else
    let node0 := h.cells pos
    if node0.locked then (none, h)
    else
      match node0.next with
      | none => (none, h)
      | some victim =>
        if o_inner.run = false then (none, h)
        else
          let nv := h.cells victim
          if nv.locked then (none, h)
          else if o_inner.commit = false then (none, h)
          else
            let h1 := set_cell h victim { nv with locked := true }
            if o_outer.commit = true ∧ pos ≠ victim then
              let h2 := set_cell h1 pos { node0 with next := nv.next }
              (some victim, set_cell h2 victim { h2.cells victim with deleted := true })
            else
              (none, set_cell h1 victim { h1.cells victim with locked := false })

/-- The method `iterator::update_weak( data )` of src/unnamed/part_001
lines 132-138: under `update_weak` on the iterator's cell, veto if the
node is locked, otherwise move `data` into the node. -/
def iter_update_weak {T : Type} (h : Heap T) (id : Nat) (v : T) (o : WOracle) :
    Bool × Heap T :=
  if o.run = false then (false, h)
  else
    let node0 := h.cells id
    if node0.locked then (false, h)
    else if o.commit = false then (false, h)
    else (true, set_cell h id { node0 with data := v })

/-- The method `iterator::update( data )` of src/unnamed/part_001 lines
123-129: loop forever { if `is_deleted()` return `false`; if
`update_weak( data )` return `true` }, given oracles for the successive
`update_weak` attempts; `none` means the modelled attempts were exhausted
with the loop still running. -/
def iter_update {T : Type} : List WOracle → Heap T → Nat → T → Option Bool × Heap T
  | [], h, _, _ => (none, h)
  | o :: os, h, id, v =>
    if (h.cells id).deleted then (some false, h)
    else
      match iter_update_weak h id v o with
      | (true, h1) => (some true, h1)
      | (false, h1) => iter_update os h1 id v

/-- The method `empty()` of src/unnamed/part_001 lines 275-279: the head
sentinel's `next` is null. -/
def is_empty {T : Type} (h : Heap T) (head : Nat) : Bool :=
  ((h.cells head).next).isNone

/-- The method `pop_front()` of src/unnamed/part_001 lines 188-193:
`while( ! empty() && ! (it = erase_after_weak( pos )) ); return it;` with
oracles for the successive erase attempts; `none` is the empty iterator
(also returned when the modelled attempts run out). -/
def pop_front {T : Type} : List (WOracle × WOracle) → Heap T → Nat → Option Nat × Heap T
  | [], h, _ => (none, h)
  | o :: os, h, head =>
    if is_empty h head then (none, h)
    else
      match erase_after_weak h head o.1 o.2 with
      | (some v, h1) => (some v, h1)
      | (none, h1) => pop_front os h1 head

/-- The node invariant of the spec: a tombstoned node is locked. -/
def DeletedLocked {T : Type} (h : Heap T) : Prop :=
  ∀ id, (h.cells id).deleted = true → (h.cells id).locked = true

/-- Heap well-formedness: cells not yet allocated are neither locked nor
tombstoned, and every `next` pointer targets an allocated cell. -/
def WF {T : Type} (h : Heap T) : Prop :=
  (∀ id, h.fresh ≤ id → (h.cells id).locked = false ∧ (h.cells id).deleted = false) ∧
  (∀ id j, (h.cells id).next = some j → j < h.fresh)

/-- Tombstones are permanent: every node tombstoned in `h` is still
tombstoned, and still locked, in `h2`. -/
def Sticky {T : Type} (h h2 : Heap T) : Prop :=
  ∀ m, (h.cells m).deleted = true →
    (h2.cells m).deleted = true ∧ (h2.cells m).locked = true

/-- The conclusion carried through every list operation: the result heap
is well formed, satisfies the node invariant, and keeps every tombstone of
the starting heap locked. -/
def Good {T : Type} (h h2 : Heap T) : Prop :=
  WF h2 ∧ DeletedLocked h2 ∧ Sticky h h2

/-- One list operation applied to the heap: `push_front`,
`insert_after_weak`, `erase_after_weak`, `pop_front`, or an iterator's
`update` / `update_weak`, at arbitrary positions and with arbitrary
oracles and arguments. -/
inductive OpStep {T : Type} : Heap T → Heap T → Prop where
  | push (h : Heap T) (head : Nat) (v : T) (o : WOracle) :
      OpStep h (push_front h head v o).2
  | insert (h : Heap T) (pos : Nat) (v : T) (o : WOracle) :
      OpStep h (insert_after_weak h pos v o).2
  | erase (h : Heap T) (pos : Nat) (o1 o2 : WOracle) :
      OpStep h (erase_after_weak h pos o1 o2).2
  | iter_upd_weak (h : Heap T) (id : Nat) (v : T) (o : WOracle) :
      OpStep h (iter_update_weak h id v o).2
  | iter_upd (h : Heap T) (os : List WOracle) (id : Nat) (v : T) :
      OpStep h (iter_update os h id v).2
  | pop (h : Heap T) (os : List (WOracle × WOracle)) (head : Nat) :
      OpStep h (pop_front os h head).2

/-- Any finite sequence of list operations. -/
inductive Evolves {T : Type} : Heap T → Heap T → Prop where
  | refl (h : Heap T) : Evolves h h
  | step (h1 h2 h3 : Heap T) : Evolves h1 h2 → OpStep h2 h3 → Evolves h1 h3

end AtomicList

namespace AtomicData

/-! Branch equations for `update_weak`: one lemma per exit path of the
C++ method. -/

theorem uw_queue_empty {T : Type} (N : Nat) (f : T → Option (T × Bool)) (o : UWOracle)
    (s : CellState T) (h1 : s.left = s.right) :
    update_weak N f o s = (.failure .queueEmpty, s) := by
  simp [update_weak, h1]

theorem uw_at_barrier {T : Type} (N : Nat) (f : T → Option (T × Bool)) (o : UWOracle)
    (s : CellState T) (h1 : s.left ≠ s.right)
    (h2 : check_barrier N s.left s.right s.counters = false) :
    update_weak N f o s = (.failure .atBarrier, s) := by
  simp [update_weak, h1, h2]

theorem uw_cas_left_lost {T : Type} (N : Nat) (f : T → Option (T × Bool)) (o : UWOracle)
    (s : CellState T) (h1 : s.left ≠ s.right)
    (h2 : check_barrier N s.left s.right s.counters = true) (h3 : o.cas_left = false) :
    update_weak N f o s = (.failure .casLost, s) := by
  simp [update_weak, h1, h2, h3]

theorem uw_thrown {T : Type} (N : Nat) (f : T → Option (T × Bool)) (o : UWOracle)
    (s : CellState T) (h1 : s.left ≠ s.right)
    (h2 : check_barrier N s.left s.right s.counters = true) (h3 : o.cas_left = true)
    (hf : f (s.store s.current) = none) :
    update_weak N f o s = (.thrown, uw_fail_state N s (s.store s.current)) := by
  simp [update_weak, cg_inc, cg_dec, q_release, uw_fail_state, h1, h2, h3, hf]
  funext b
  by_cases hb : b = counter_index N s.right <;> simp [hb, Nat.mod_add_mod]

theorem uw_vetoed {T : Type} (N : Nat) (f : T → Option (T × Bool)) (o : UWOracle)
    (s : CellState T) (t1 : T) (h1 : s.left ≠ s.right)
    (h2 : check_barrier N s.left s.right s.counters = true) (h3 : o.cas_left = true)
    (hf : f (s.store s.current) = some (t1, false)) :
    update_weak N f o s = (.failure .vetoed, uw_fail_state N s t1) := by
  simp [update_weak, cg_inc, cg_dec, q_release, uw_fail_state, h1, h2, h3, hf]
  constructor
  · funext b
    by_cases hb : b = counter_index N s.right <;> simp [hb, Nat.mod_add_mod]
  · funext p
    by_cases hp : p = s.ring (s.left % (2 * N)) <;> simp [hp]

theorem uw_cas_data_lost {T : Type} (N : Nat) (f : T → Option (T × Bool)) (o : UWOracle)
    (s : CellState T) (t1 : T) (h1 : s.left ≠ s.right)
    (h2 : check_barrier N s.left s.right s.counters = true) (h3 : o.cas_left = true)
    (hf : f (s.store s.current) = some (t1, true)) (h4 : o.cas_data = false) :
    update_weak N f o s = (.failure .casLost, uw_fail_state N s t1) := by
  simp [update_weak, cg_inc, cg_dec, q_release, uw_fail_state, h1, h2, h3, hf, h4]
  constructor
  · funext b
    by_cases hb : b = counter_index N s.right <;> simp [hb, Nat.mod_add_mod]
  · funext p
    by_cases hp : p = s.ring (s.left % (2 * N)) <;> simp [hp]

theorem uw_success {T : Type} (N : Nat) (f : T → Option (T × Bool)) (o : UWOracle)
    (s : CellState T) (t1 : T) (h1 : s.left ≠ s.right)
    (h2 : check_barrier N s.left s.right s.counters = true) (h3 : o.cas_left = true)
    (hf : f (s.store s.current) = some (t1, true)) (h4 : o.cas_data = true) :
    update_weak N f o s = (.success, uw_success_state N s t1) := by
  simp [update_weak, cg_inc, cg_dec, q_release, uw_success_state, h1, h2, h3, hf, h4]
  constructor
  · funext b
    by_cases hb : b = counter_index N s.right <;> simp [hb, Nat.mod_add_mod]
  · funext p
    by_cases hp : p = s.ring (s.left % (2 * N)) <;> simp [hp]

/-- C1: for every mutator `f`, whenever `update_weak f` returns `true`,
the value published as `current` afterwards equals the result of applying
`f` to a copy of the value that was `current` at the call, and the slot
holding the displaced old `current` value is returned to the recycle queue
(stored at the old `right` position, with `right` advanced). -/
theorem update_weak_success_spec {T : Type} (N : Nat) (f : T → Option (T × Bool))
    (o : UWOracle) (s : CellState T) (h : (update_weak N f o s).1 = .success) :
    ∃ t1, f (s.store s.current) = some (t1, true) ∧
      (update_weak N f o s).2.current = s.ring (s.left % (2 * N)) ∧
      (update_weak N f o s).2.store ((update_weak N f o s).2.current) = t1 ∧
      (update_weak N f o s).2.ring (s.right % (2 * N)) = s.current ∧
      (update_weak N f o s).2.right = (s.right + 1) % U ∧
      (update_weak N f o s).2.left = (s.left + 1) % U := by
  by_cases h1 : s.left = s.right
  · rw [uw_queue_empty N f o s h1] at h
    exact absurd h (by simp)
  · by_cases h2 : check_barrier N s.left s.right s.counters = false
    · rw [uw_at_barrier N f o s h1 h2] at h
      exact absurd h (by simp)
    · simp only [Bool.not_eq_false] at h2
      by_cases h3 : o.cas_left = false
      · rw [uw_cas_left_lost N f o s h1 h2 h3] at h
        exact absurd h (by simp)
      · simp only [Bool.not_eq_false] at h3
        rcases hf : f (s.store s.current) with _ | ⟨t1, ok⟩
        · rw [uw_thrown N f o s h1 h2 h3 hf] at h
          exact absurd h (by simp)
        · cases ok with
          | false =>
            rw [uw_vetoed N f o s t1 h1 h2 h3 hf] at h
            exact absurd h (by simp)
          | true =>
            by_cases h4 : o.cas_data = false
            · rw [uw_cas_data_lost N f o s t1 h1 h2 h3 hf h4] at h
              exact absurd h (by simp)
            · simp only [Bool.not_eq_false] at h4
              rw [uw_success N f o s t1 h1 h2 h3 hf h4]
              exact ⟨t1, rfl, by simp [uw_success_state]⟩

/-- Witness for C1: a concrete cell state over `T = Nat` with `N = 2`
where a successful `update_weak` publishes `0 + 5` and recycles the
displaced slot id 0 at ring position 3. -/
theorem update_weak_success_spec_witness :
    (update_weak 2 (fun t : Nat => some (t + 5, true)) ⟨true, true⟩
        ⟨fun p => p + 1, 1, 3, fun _ => 0, 0, fun i => i⟩).1 = .success ∧
    (update_weak 2 (fun t : Nat => some (t + 5, true)) ⟨true, true⟩
        ⟨fun p => p + 1, 1, 3, fun _ => 0, 0, fun i => i⟩).2.ring 3 = 0 := by
  refine ⟨rfl, ?_⟩
  obtain ⟨t1, hf, hcur, hstore, hring, hright, hleft⟩ :=
    update_weak_success_spec 2 (fun t : Nat => some (t + 5, true)) ⟨true, true⟩
      ⟨fun p => p + 1, 1, 3, fun _ => 0, 0, fun i => i⟩ rfl
  simpa using hring

/-- Field-level description of `uw_fail_state` under the cell invariants
that the usage counters are genuine `unsigned` values and the next free
slot is not the published one. -/
theorem uw_fail_state_spec {T : Type} (N : Nat) (s : CellState T) (w : T)
    (hc : ∀ b, s.counters b < U)
    (hslot : s.ring (s.left % (2 * N)) ≠ s.current) :
    (uw_fail_state N s w).current = s.current ∧
    (uw_fail_state N s w).store s.current = s.store s.current ∧
    (uw_fail_state N s w).counters = s.counters ∧
    (uw_fail_state N s w).left = (s.left + 1) % U ∧
    (uw_fail_state N s w).right = (s.right + 1) % U ∧
    (uw_fail_state N s w).ring (s.right % (2 * N)) = s.ring (s.left % (2 * N)) ∧
    ∀ p, p ≠ s.right % (2 * N) → (uw_fail_state N s w).ring p = s.ring p := by
  refine ⟨rfl, ?_, ?_, rfl, rfl, by simp [uw_fail_state], ?_⟩
  · simp [uw_fail_state, if_neg (Ne.symm hslot)]
  · funext b
    simp only [uw_fail_state]
    by_cases hb : b = counter_index N s.right
    · subst hb
      have hcb := hc (counter_index N s.right)
      rw [if_pos rfl]
      simp only [U] at hcb ⊢
      omega
    · simp [hb]
  · intro p hp
    simp [uw_fail_state, hp]

/-- C2: for every mutator `f`, whenever `update_weak f` does not succeed
(any of the four `false` reasons, or `f` threw — the throw propagating as
the `.thrown` outcome), the published `current` pointer and its contents
are unchanged, the usage counters are restored, and either nothing was
allocated (state unchanged) or the allocated slot was returned to the
queue at the old `right` position with both indices advanced in step.
The two hypotheses are the cell invariants: counters are `unsigned`
values, and the slot about to be allocated is not the published one. -/
theorem update_weak_failure_spec {T : Type} (N : Nat) (f : T → Option (T × Bool))
    (o : UWOracle) (s : CellState T)
    (hc : ∀ b, s.counters b < U)
    (hslot : s.ring (s.left % (2 * N)) ≠ s.current)
    (h : (update_weak N f o s).1 ≠ .success) :
    (update_weak N f o s).2.current = s.current ∧
    (update_weak N f o s).2.store s.current = s.store s.current ∧
    (update_weak N f o s).2.counters = s.counters ∧
    ((update_weak N f o s).1 = .thrown → f (s.store s.current) = none) ∧
    ((update_weak N f o s).2 = s ∨
      ((update_weak N f o s).2.left = (s.left + 1) % U ∧
       (update_weak N f o s).2.right = (s.right + 1) % U ∧
       (update_weak N f o s).2.ring (s.right % (2 * N)) = s.ring (s.left % (2 * N)) ∧
       ∀ p, p ≠ s.right % (2 * N) → (update_weak N f o s).2.ring p = s.ring p)) := by
  by_cases h1 : s.left = s.right
  · rw [uw_queue_empty N f o s h1]
    simp
  · by_cases h2 : check_barrier N s.left s.right s.counters = false
    · rw [uw_at_barrier N f o s h1 h2]
      simp
    · simp only [Bool.not_eq_false] at h2
      by_cases h3 : o.cas_left = false
      · rw [uw_cas_left_lost N f o s h1 h2 h3]
        simp
      · simp only [Bool.not_eq_false] at h3
        rcases hf : f (s.store s.current) with _ | ⟨t1, ok⟩
        · rw [uw_thrown N f o s h1 h2 h3 hf]
          obtain ⟨e1, e2, e3, e4, e5, e6, e7⟩ := uw_fail_state_spec N s (s.store s.current) hc hslot
          exact ⟨e1, e2, e3, fun _ => rfl, Or.inr ⟨e4, e5, e6, e7⟩⟩
        · cases ok with
          | false =>
            rw [uw_vetoed N f o s t1 h1 h2 h3 hf]
            obtain ⟨e1, e2, e3, e4, e5, e6, e7⟩ := uw_fail_state_spec N s t1 hc hslot
            exact ⟨e1, e2, e3, by simp, Or.inr ⟨e4, e5, e6, e7⟩⟩
          | true =>
            by_cases h4 : o.cas_data = false
            · rw [uw_cas_data_lost N f o s t1 h1 h2 h3 hf h4]
              obtain ⟨e1, e2, e3, e4, e5, e6, e7⟩ := uw_fail_state_spec N s t1 hc hslot
              exact ⟨e1, e2, e3, by simp, Or.inr ⟨e4, e5, e6, e7⟩⟩
            · simp only [Bool.not_eq_false] at h4
              rw [uw_success N f o s t1 h1 h2 h3 hf h4] at h
              exact absurd rfl h

/-- Witness for C2: a concrete vetoed `update_weak` over `T = Nat` with
`N = 2` leaves `current` and the counters untouched. -/
theorem update_weak_failure_spec_witness :
    (update_weak 2 (fun t : Nat => some (t, false)) ⟨true, true⟩
        ⟨fun p => p + 1, 1, 3, fun _ => 0, 0, fun i => i⟩).2.current = 0 ∧
    (update_weak 2 (fun t : Nat => some (t, false)) ⟨true, true⟩
        ⟨fun p => p + 1, 1, 3, fun _ => 0, 0, fun i => i⟩).2.counters = fun _ => 0 := by
  obtain ⟨e1, -, e3, -, -⟩ :=
    update_weak_failure_spec 2 (fun t : Nat => some (t, false)) ⟨true, true⟩
      ⟨fun p => p + 1, 1, 3, fun _ => 0, 0, fun i => i⟩
      (by intro b; cases b <;> decide) (by decide) (by decide)
  exact ⟨e1, e3⟩

/-- C4: the synchronization-barrier check applies exactly to allocations
whose snapshotted `left` is a multiple of `N`: for `L % N ≠ 0` the check
always passes; for `L % N = 0` it passes iff all `N` slots of the previous
lap are back (`R - L ≥ N`, unsigned subtraction) and the usage counter of
the other phase (`counters[1 - counter_index R]`) reads zero; and
`update_weak` fails with the barrier reason exactly when the queue was
non-empty and `check_barrier` returned `false`. -/
theorem barrier_check_spec (N : Nat) (hN : 0 < N) :
    (∀ (L R : Nat) (c : Bool → Nat), L % N ≠ 0 → check_barrier N L R c = true) ∧
    (∀ (L R : Nat) (c : Bool → Nat), L % N = 0 → L ≤ R → R - L ≤ 2 * N → R < U →
      (check_barrier N L R c = true ↔ N ≤ R - L ∧ c (! counter_index N R) = 0)) ∧
    (∀ (T : Type) (f : T → Option (T × Bool)) (o : UWOracle) (s : CellState T),
      (update_weak N f o s).1 = .failure .atBarrier ↔
        s.left ≠ s.right ∧ check_barrier N s.left s.right s.counters = false) := by
  refine ⟨?_, ?_, ?_⟩
  · intro L R c hL
    simp [check_barrier, hL]
  · intro L R c hL hLR hRL hRU
    have hsub : (R + (U - L)) % U = R - L := by
      simp only [U] at hRU ⊢
      omega
    rw [check_barrier, if_pos hL, hsub]
    by_cases hd : R - L < N
    · simp only [if_pos hd, Bool.false_eq_true, false_iff, not_and]
      intro hge
      omega
    · simp only [if_neg hd]
      simp only [is_used, decide_eq_true_eq]
      split_ifs with hu
      · simp only [Bool.false_eq_true, false_iff, not_and]
        intro _
        omega
      · constructor
        · intro _
          exact ⟨by omega, by omega⟩
        · intro _
          rfl
  · intro T f o s
    constructor
    · intro h
      by_cases h1 : s.left = s.right
      · rw [uw_queue_empty N f o s h1] at h
        exact absurd h (by simp)
      · by_cases h2 : check_barrier N s.left s.right s.counters = false
        · exact ⟨h1, h2⟩
        · simp only [Bool.not_eq_false] at h2
          exfalso
          by_cases h3 : o.cas_left = false
          · rw [uw_cas_left_lost N f o s h1 h2 h3] at h
            simp at h
          · simp only [Bool.not_eq_false] at h3
            rcases hf : f (s.store s.current) with _ | ⟨t1, ok⟩
            · rw [uw_thrown N f o s h1 h2 h3 hf] at h
              simp at h
            · cases ok with
              | false =>
                rw [uw_vetoed N f o s t1 h1 h2 h3 hf] at h
                simp at h
              | true =>
                by_cases h4 : o.cas_data = false
                · rw [uw_cas_data_lost N f o s t1 h1 h2 h3 hf h4] at h
                  simp at h
                · simp only [Bool.not_eq_false] at h4
                  rw [uw_success N f o s t1 h1 h2 h3 hf h4] at h
                  simp at h
    · rintro ⟨h1, h2⟩
      rw [uw_at_barrier N f o s h1 h2]

/-- A `counter_guard` pair (increment, then decrement with the same
ticket) restores genuine `unsigned` counters. -/
theorem cg_roundtrip {T : Type} (N t : Nat) (s : CellState T)
    (hc : ∀ b, s.counters b < U) : cg_dec N t (cg_inc N t s) = s := by
  rcases s with ⟨r0, l0, r1, c0, cur0, st0⟩
  simp only [cg_inc, cg_dec, CellState.mk.injEq, and_true, true_and]
  funext b
  by_cases hb : b = counter_index N t
  · subst hb
    have hcb := hc (counter_index N t)
    simp only at hcb
    rw [if_pos rfl, if_pos rfl, Nat.mod_add_mod]
    simp only [U] at hcb ⊢
    omega
  · simp [hb]

/-- The spin loop of the older `read` never exits while the writer's
barrier signal stays raised, whatever the reader's step budget. -/
theorem old_read_wait_stuck {T : Type} (s : OldCellState T) (hnr : s.no_reading ≠ 0) :
    ∀ fuel, old_read_wait fuel s = false := by
  intro fuel
  induction fuel with
  | zero => rfl
  | succ n ih => simp [old_read_wait, hnr, ih]

/-- C5 (amended): in src/samples/atomic_data.h, `read` completes in a
fixed number of its own steps — register, load `current`, apply the
functor, unregister — with the usage counters restored, for every cell
state; but in the earlier variant src/atomic_data.h, `read` first spins on
the `no_reading` signal a writer raises at the synchronization barrier, so
a reader with that signal up never completes within any own-step budget. -/
theorem read_wait_free_spec {T R : Type} (N : Nat) (f : T → R) (s : CellState T)
    (hc : ∀ b, s.counters b < U) :
    ((cell_read N f s).1 = f (s.store s.current) ∧ (cell_read N f s).2 = s) ∧
    (∀ (fuel : Nat) (g : T → R) (s0 : OldCellState T),
      s0.no_reading ≠ 0 → old_read fuel g s0 = (none, s0)) := by
  refine ⟨⟨rfl, cg_roundtrip N s.right s hc⟩, ?_⟩
  intro fuel g s0 hnr
  simp [old_read, old_read_wait_stuck s0 hnr fuel]

/-- Witness for C5's amended theorem at a concrete state. -/
theorem read_wait_free_spec_witness :
    (cell_read 2 (fun t : Nat => t + 1) ⟨fun p => p + 1, 1, 3, fun _ => 0, 0, fun i => i⟩).1 = 1 ∧
    (cell_read 2 (fun t : Nat => t + 1) ⟨fun p => p + 1, 1, 3, fun _ => 0, 0, fun i => i⟩).2 =
      ⟨fun p => p + 1, 1, 3, fun _ => 0, 0, fun i => i⟩ := by
  obtain ⟨⟨e1, e2⟩, -⟩ :=
    read_wait_free_spec 2 (fun t : Nat => t + 1)
      ⟨fun p => p + 1, 1, 3, fun _ => 0, 0, fun i => i⟩ (by intro b; cases b <;> decide)
  exact ⟨e1, e2⟩

/-- Counterexample for C5 as stated: against src/atomic_data.h (cited by
the claim), a `read` issued while a writer sits at the synchronization
barrier (`no_reading` raised by `sync`) does not complete within a million
of its own steps — its opening loop waits on the other thread. -/
theorem read_wait_counterexample :
    old_read 1000000 (fun t : Nat => t) (old_sync_signal ⟨0, 0, 37⟩) =
      (none, old_sync_signal ⟨0, 0, 37⟩) := by
  have hnr : (old_sync_signal (⟨0, 0, 37⟩ : OldCellState Nat)).no_reading ≠ 0 := by
    decide
  simp [old_read, old_read_wait_stuck _ hnr]

/-- Both queue indices of `update_weak`'s final state: either untouched
(the three early exits) or both advanced by one (every path past the
allocation CAS). -/
theorem update_weak_lr {T : Type} (N : Nat) (f : T → Option (T × Bool)) (o : UWOracle)
    (s : CellState T) :
    ((update_weak N f o s).2.left = s.left ∧ (update_weak N f o s).2.right = s.right) ∨
    ((update_weak N f o s).2.left = (s.left + 1) % U ∧
     (update_weak N f o s).2.right = (s.right + 1) % U) := by
  by_cases h1 : s.left = s.right
  · rw [uw_queue_empty N f o s h1]
    exact Or.inl ⟨rfl, rfl⟩
  · by_cases h2 : check_barrier N s.left s.right s.counters = false
    · rw [uw_at_barrier N f o s h1 h2]
      exact Or.inl ⟨rfl, rfl⟩
    · simp only [Bool.not_eq_false] at h2
      by_cases h3 : o.cas_left = false
      · rw [uw_cas_left_lost N f o s h1 h2 h3]
        exact Or.inl ⟨rfl, rfl⟩
      · simp only [Bool.not_eq_false] at h3
        rcases hf : f (s.store s.current) with _ | ⟨t1, ok⟩
        · rw [uw_thrown N f o s h1 h2 h3 hf]
          exact Or.inr ⟨rfl, rfl⟩
        · cases ok with
          | false =>
            rw [uw_vetoed N f o s t1 h1 h2 h3 hf]
            exact Or.inr ⟨rfl, rfl⟩
          | true =>
            by_cases h4 : o.cas_data = false
            · rw [uw_cas_data_lost N f o s t1 h1 h2 h3 hf h4]
              exact Or.inr ⟨rfl, rfl⟩
            · simp only [Bool.not_eq_false] at h4
              rw [uw_success N f o s t1 h1 h2 h3 hf h4]
              exact Or.inr ⟨rfl, rfl⟩

/-- C6: in every state reachable from the initial state (`left = 0`,
`right = N`, `N` preloaded slots) by any sequence of `read` and
`update_weak` steps, the queue indices are the unsigned images of
unbounded counters `l ≤ r` with `r - l ∈ [1, array_size]`
(`array_size = 2N`); in fact `r - l = N` throughout. -/
theorem queue_index_invariant {T : Type} (N : Nat) (t0 d : T) (hN : 0 < N)
    (hNU : 2 * N < U) (s : CellState T) (hr : Reach N t0 d s) :
    ∃ l r : Nat, s.left = l % U ∧ s.right = r % U ∧ l ≤ r ∧
      1 ≤ r - l ∧ r - l ≤ 2 * N := by
  suffices h : ∃ l : Nat, s.left = l % U ∧ s.right = (l + N) % U by
    obtain ⟨l, h1, h2⟩ := h
    exact ⟨l, l + N, h1, h2, by omega, by omega, by omega⟩
  induction hr with
  | init =>
    refine ⟨0, by simp [init_state], ?_⟩
    have hU : N < U := by omega
    simp [init_state, Nat.mod_eq_of_lt hU]
  | step_read s' f hr' ih =>
    obtain ⟨l, h1, h2⟩ := ih
    exact ⟨l, h1, h2⟩
  | step_update s' f o hr' ih =>
    obtain ⟨l, h1, h2⟩ := ih
    rcases update_weak_lr N f o s' with ⟨e1, e2⟩ | ⟨e1, e2⟩
    · exact ⟨l, by rw [e1, h1], by rw [e2, h2]⟩
    · refine ⟨l + 1, ?_, ?_⟩
      · rw [e1, h1, Nat.mod_add_mod]
      · rw [e2, h2, Nat.mod_add_mod]
        have he : l + N + 1 = l + 1 + N := by omega
        rw [he]

/-- Witness for C6 at the initial state with `N = 2`. -/
theorem queue_index_invariant_witness :
    ∃ l r : Nat, (init_state 2 (0 : Nat) 0).left = l % U ∧
      (init_state 2 (0 : Nat) 0).right = r % U ∧ l ≤ r ∧
      1 ≤ r - l ∧ r - l ≤ 2 * 2 :=
  queue_index_invariant 2 0 0 (by decide) (by decide) _ Reach.init

/-- Witness for C4: with `N = 2`, an allocation at `L = 3` passes the
check, an allocation at `L = 4` with only one slot returned fails it, and
a concrete `update_weak` call fails with the barrier reason. -/
theorem barrier_check_spec_witness :
    check_barrier 2 3 5 (fun _ => 0) = true ∧
    check_barrier 2 4 5 (fun _ => 0) = false ∧
    (update_weak 2 (fun t : Nat => some (t, true)) ⟨true, true⟩
        ⟨fun p => p + 1, 4, 5, fun _ => 0, 0, fun i => i⟩).1 = .failure .atBarrier := by
  obtain ⟨p1, p2, p3⟩ := barrier_check_spec 2 (by decide)
  refine ⟨p1 3 5 (fun _ => 0) (by decide), ?_, ?_⟩
  · have h2 := p2 4 5 (fun _ => 0) (by decide) (by decide) (by decide) (by decide)
    revert h2
    cases hcb : check_barrier 2 4 5 (fun _ => 0) <;> simp
  · exact ((p3 Nat (fun t => some (t, true)) ⟨true, true⟩
      ⟨fun p => p + 1, 4, 5, fun _ => 0, 0, fun i => i⟩).2 ⟨by decide, by decide⟩)

end AtomicData

namespace AtomicList

/-- C7: in `erase_after_weak( pos )`, when the victim (successor of `pos`)
was successfully locked by the inner `update_weak`: if the outer
`update_weak` fails, a strong `update` resets the victim's `locked` flag
to `false` and the empty iterator is returned (the rest of the victim and
the `pos` node untouched); if the outer `update_weak` succeeds, a strong
`update` sets the victim's `deleted` flag to `true` (its lock kept) and an
iterator to the victim is returned, with `pos` now linking past it. -/
theorem erase_after_weak_spec {T : Type} (h : Heap T) (pos victim : Nat)
    (o1 o2 : WOracle) (hrun : o1.run = true) (hirun : o2.run = true)
    (hicommit : o2.commit = true) (hposl : (h.cells pos).locked = false)
    (hnext : (h.cells pos).next = some victim)
    (hvl : (h.cells victim).locked = false) (hne : pos ≠ victim) :
    (o1.commit = false →
      (erase_after_weak h pos o1 o2).1 = none ∧
      ((erase_after_weak h pos o1 o2).2.cells victim).locked = false ∧
      ((erase_after_weak h pos o1 o2).2.cells victim).deleted = (h.cells victim).deleted ∧
      (erase_after_weak h pos o1 o2).2.cells pos = h.cells pos) ∧
    (o1.commit = true →
      (erase_after_weak h pos o1 o2).1 = some victim ∧
      ((erase_after_weak h pos o1 o2).2.cells victim).deleted = true ∧
      ((erase_after_weak h pos o1 o2).2.cells victim).locked = true ∧
      ((erase_after_weak h pos o1 o2).2.cells pos).next = (h.cells victim).next) := by
  constructor
  · intro hoc
    simp [erase_after_weak, set_cell, hrun, hirun, hicommit, hposl, hnext, hvl,
      hne, Ne.symm hne, hoc]
  · intro hoc
    simp [erase_after_weak, set_cell, hrun, hirun, hicommit, hposl, hnext, hvl,
      hne, Ne.symm hne, hoc]

/-- Witness for C7: a two-node heap where the delete succeeds (victim ends
tombstoned and locked) and, with a failing outer commit, the victim is
unlocked again. -/
theorem erase_after_weak_spec_witness :
    (erase_after_weak
        (⟨fun i => if i = 0 then ⟨false, false, 0, some 1⟩
          else if i = 1 then ⟨false, false, 7, none⟩
          else ⟨false, false, 0, none⟩, 2⟩ : Heap Nat) 0 ⟨true, true⟩ ⟨true, true⟩).1 =
      some 1 ∧
    ((erase_after_weak
        (⟨fun i => if i = 0 then ⟨false, false, 0, some 1⟩
          else if i = 1 then ⟨false, false, 7, none⟩
          else ⟨false, false, 0, none⟩, 2⟩ : Heap Nat) 0 ⟨true, true⟩ ⟨true, true⟩).2.cells
        1).deleted = true ∧
    ((erase_after_weak
        (⟨fun i => if i = 0 then ⟨false, false, 0, some 1⟩
          else if i = 1 then ⟨false, false, 7, none⟩
          else ⟨false, false, 0, none⟩, 2⟩ : Heap Nat) 0 ⟨true, false⟩ ⟨true, true⟩).2.cells
        1).locked = false := by
  obtain ⟨-, w2⟩ :=
    erase_after_weak_spec
      (⟨fun i => if i = 0 then ⟨false, false, 0, some 1⟩
        else if i = 1 then ⟨false, false, 7, none⟩
        else ⟨false, false, 0, none⟩, 2⟩ : Heap Nat) 0 1 ⟨true, true⟩ ⟨true, true⟩
      rfl rfl rfl (by decide) (by decide) (by decide) (by decide)
  obtain ⟨w1, -⟩ :=
    erase_after_weak_spec
      (⟨fun i => if i = 0 then ⟨false, false, 0, some 1⟩
        else if i = 1 then ⟨false, false, 7, none⟩
        else ⟨false, false, 0, none⟩, 2⟩ : Heap Nat) 0 1 ⟨true, false⟩ ⟨true, true⟩
      rfl rfl rfl (by decide) (by decide) (by decide) (by decide)
  exact ⟨(w2 rfl).1, (w2 rfl).2.1, (w1 rfl).2.1⟩

/-- C9: `iterator::update( data )` on an iterator whose node is
tombstoned returns `false` without touching the heap (the very first
`is_deleted()` test exits the loop), whatever the oracle budget. -/
theorem iter_update_deleted_spec {T : Type} (h : Heap T) (id : Nat) (v : T)
    (o : WOracle) (os : List WOracle) (hdel : (h.cells id).deleted = true) :
    iter_update (o :: os) h id v = (some false, h) := by
  simp [iter_update, hdel]

/-- Witness for C9 on a one-node heap whose node is deleted. -/
theorem iter_update_deleted_spec_witness :
    iter_update [⟨true, true⟩]
      (⟨fun i => if i = 0 then ⟨true, true, 3, none⟩ else ⟨false, false, 0, none⟩, 1⟩ :
        Heap Nat) 0 9 =
      (some false,
        ⟨fun i => if i = 0 then ⟨true, true, 3, none⟩ else ⟨false, false, 0, none⟩, 1⟩) :=
  iter_update_deleted_spec _ 0 9 ⟨true, true⟩ [] (by decide)

/-- C10: `pop_front()` on an empty list (head sentinel's `next` is null)
returns the empty iterator at once — the `empty()` test exits the loop
before any erase is attempted — and leaves the heap unchanged. -/
theorem pop_front_empty_spec {T : Type} (h : Heap T) (head : Nat)
    (o : WOracle × WOracle) (os : List (WOracle × WOracle))
    (hempty : is_empty h head = true) :
    pop_front (o :: os) h head = (none, h) := by
  simp [pop_front, hempty]

/-- Witness for C10 on a heap whose head sentinel has no successor. -/
theorem pop_front_empty_spec_witness :
    pop_front [(⟨true, true⟩, ⟨true, true⟩)]
      (⟨fun _ => ⟨false, false, 0, none⟩, 1⟩ : Heap Nat) 0 =
      (none, ⟨fun _ => ⟨false, false, 0, none⟩, 1⟩) :=
  pop_front_empty_spec _ 0 (⟨true, true⟩, ⟨true, true⟩) [] (by decide)

/-! Machinery for C8: every list operation preserves well-formedness and
the `deleted ⇒ locked` invariant, and never unlocks a tombstoned node. -/

theorem good_refl {T : Type} (h : Heap T) (hwf : WF h) (hinv : DeletedLocked h) :
    Good h h :=
  ⟨hwf, hinv, fun m hm => ⟨hm, hinv m hm⟩⟩

theorem good_trans {T : Type} {h h2 h3 : Heap T} (g1 : Good h h2) (g2 : Good h2 h3) :
    Good h h3 :=
  ⟨g2.1, g2.2.1, fun m hm => g2.2.2 m (g1.2.2 m hm).1⟩

/-- A committed node write is `Good` when the written node respects the
invariants: a write into unallocated space carries neither flag, the node
respects `deleted ⇒ locked`, its successor is allocated, and a tombstoned
target stays tombstoned and locked. -/
theorem good_set_cell {T : Type} (h : Heap T) (id : Nat) (n : Node T)
    (hwf : WF h) (hinv : DeletedLocked h)
    (hjunk : h.fresh ≤ id → n.locked = false ∧ n.deleted = false)
    (hnode : n.deleted = true → n.locked = true)
    (hnext : ∀ j, n.next = some j → j < h.fresh)
    (hsticky : (h.cells id).deleted = true → n.deleted = true ∧ n.locked = true) :
    Good h (set_cell h id n) := by
  obtain ⟨hwf1, hwf2⟩ := hwf
  refine ⟨⟨?_, ?_⟩, ?_, ?_⟩
  · intro m hm
    simp only [set_cell] at hm ⊢
    by_cases hmid : m = id
    · subst hmid
      simp only [if_pos rfl]
      exact hjunk hm
    · simp only [if_neg hmid]
      exact hwf1 m hm
  · intro m j hj
    simp only [set_cell] at hj ⊢
    by_cases hmid : m = id
    · subst hmid
      rw [if_pos rfl] at hj
      exact hnext j hj
    · rw [if_neg hmid] at hj
      exact hwf2 m j hj
  · intro m hm
    simp only [set_cell] at hm ⊢
    by_cases hmid : m = id
    · subst hmid
      rw [if_pos rfl] at hm ⊢
      exact hnode hm
    · rw [if_neg hmid] at hm ⊢
      exact hinv m hm
  · intro m hm
    simp only [set_cell]
    by_cases hmid : m = id
    · subst hmid
      simp only [if_pos rfl]
      exact hsticky hm
    · simp only [if_neg hmid]
      exact ⟨hm, hinv m hm⟩

/-- Allocating a fresh cell holding a clean node is `Good` provided the
new node's successor is already allocated. -/
theorem good_alloc {T : Type} (h : Heap T) (v : T) (nx : Option Nat)
    (hwf : WF h) (hinv : DeletedLocked h)
    (hnx : ∀ j, nx = some j → j < h.fresh) :
    Good h ⟨fun i => if i = h.fresh then ⟨false, false, v, nx⟩ else h.cells i,
      h.fresh + 1⟩ := by
  obtain ⟨hwf1, hwf2⟩ := hwf
  refine ⟨⟨?_, ?_⟩, ?_, ?_⟩
  · intro m hm
    simp only at hm ⊢
    have hne : m ≠ h.fresh := by omega
    simp only [if_neg hne]
    exact hwf1 m (by omega)
  · intro m j hj
    simp only at hj ⊢
    by_cases hmf : m = h.fresh
    · subst hmf
      rw [if_pos rfl] at hj
      have := hnx j hj
      omega
    · rw [if_neg hmf] at hj
      have := hwf2 m j hj
      omega
  · intro m hm
    simp only at hm ⊢
    by_cases hmf : m = h.fresh
    · subst hmf
      rw [if_pos rfl] at hm
      exact absurd hm (by simp)
    · rw [if_neg hmf] at hm ⊢
      exact hinv m hm
  · intro m hm
    have hmf : m ≠ h.fresh := by
      intro e
      subst e
      rw [(hwf1 h.fresh (Nat.le_refl _)).2] at hm
      exact absurd hm (by decide)
    simp only [if_neg hmf]
    exact ⟨hm, hinv m hm⟩

theorem insert_good {T : Type} (h : Heap T) (pos : Nat) (v : T) (o : WOracle)
    (hwf : WF h) (hinv : DeletedLocked h) :
    Good h (insert_after_weak h pos v o).2 := by
  by_cases hrun : o.run = false
  · simp only [insert_after_weak, if_pos hrun]
    exact good_refl h hwf hinv
  · simp only [insert_after_weak, if_neg hrun]
    by_cases hpl : (h.cells pos).locked
    · simp only [if_pos hpl]
      exact good_refl h hwf hinv
    · simp only [if_neg hpl]
      simp only [Bool.not_eq_true] at hpl
      have galloc := good_alloc h v (h.cells pos).next hwf hinv
        (fun j hj => hwf.2 pos j hj)
      by_cases hcom : o.commit = false
      · simp only [if_pos hcom]
        exact galloc
      · simp only [if_neg hcom]
        refine good_trans galloc (good_set_cell _ pos _ galloc.1 galloc.2.1 ?_ ?_ ?_ ?_)
        · intro hge
          simp only at hge
          have hne : pos ≠ h.fresh := by omega
          constructor
          · exact hpl
          · have := hwf.1 pos (by omega)
            exact this.2
        · intro hd
          simp only at hd
          exact absurd (hinv pos hd) (by simp [hpl])
        · intro j hj
          simp only at hj ⊢
          simp only [Option.some.injEq] at hj
          omega
        · intro hd
          simp only at hd
          have hne : pos ≠ h.fresh := by
            intro e
            subst e
            simp at hd
          rw [if_neg hne] at hd
          exact absurd (hinv pos hd) (by simp [hpl])

theorem iterw_good {T : Type} (h : Heap T) (id : Nat) (v : T) (o : WOracle)
    (hwf : WF h) (hinv : DeletedLocked h) :
    Good h (iter_update_weak h id v o).2 := by
  by_cases hrun : o.run = false
  · simp only [iter_update_weak, if_pos hrun]
    exact good_refl h hwf hinv
  · simp only [iter_update_weak, if_neg hrun]
    by_cases hpl : (h.cells id).locked
    · simp only [if_pos hpl]
      exact good_refl h hwf hinv
    · simp only [if_neg hpl]
      simp only [Bool.not_eq_true] at hpl
      by_cases hcom : o.commit = false
      · simp only [if_pos hcom]
        exact good_refl h hwf hinv
      · simp only [if_neg hcom]
        refine good_set_cell h id _ hwf hinv ?_ ?_ ?_ ?_
        · intro hge
          exact ⟨hpl, (hwf.1 id hge).2⟩
        · intro hd
          exact hinv id hd
        · intro j hj
          exact hwf.2 id j hj
        · intro hd
          exact ⟨hd, hinv id hd⟩

theorem erase_good {T : Type} (h : Heap T) (pos : Nat) (o1 o2 : WOracle)
    (hwf : WF h) (hinv : DeletedLocked h) :
    Good h (erase_after_weak h pos o1 o2).2 := by
  by_cases hrun : o1.run = false
  · simp only [erase_after_weak, if_pos hrun]
    exact good_refl h hwf hinv
  · simp only [erase_after_weak, if_neg hrun]
    by_cases hpl : (h.cells pos).locked
    · simp only [if_pos hpl]
      exact good_refl h hwf hinv
    · simp only [if_neg hpl]
      simp only [Bool.not_eq_true] at hpl
      rcases hnx : (h.cells pos).next with _ | victim
      · exact good_refl h hwf hinv
      · have hvf : victim < h.fresh := hwf.2 pos victim hnx
        by_cases hirun : o2.run = false
        · simp only [if_pos hirun]
          exact good_refl h hwf hinv
        · simp only [if_neg hirun]
          by_cases hvl : (h.cells victim).locked
          · simp only [if_pos hvl]
            exact good_refl h hwf hinv
          · simp only [if_neg hvl]
            simp only [Bool.not_eq_true] at hvl
            by_cases hicom : o2.commit = false
            · simp only [if_pos hicom]
              exact good_refl h hwf hinv
            · simp only [if_neg hicom]
              have hvd : (h.cells victim).deleted = false := by
                by_contra hx
                simp only [Bool.not_eq_false] at hx
                rw [hinv victim hx] at hvl
                exact absurd hvl (by decide)
              have g1 : Good h (set_cell h victim
                  { h.cells victim with locked := true }) := by
                refine good_set_cell h victim _ hwf hinv ?_ ?_ ?_ ?_
                · intro hge
                  omega
                · intro _
                  rfl
                · intro j hj
                  exact hwf.2 victim j hj
                · intro hd
                  rw [hvd] at hd
                  exact absurd hd (by decide)
              by_cases houter : o1.commit = true ∧ pos ≠ victim
              · simp only [if_pos houter]
                have hpv : pos ≠ victim := houter.2
                have h1pos : (set_cell h victim
                    { h.cells victim with locked := true }).cells pos = h.cells pos := by
                  simp [set_cell, hpv]
                have g2 : Good (set_cell h victim { h.cells victim with locked := true })
                    (set_cell (set_cell h victim { h.cells victim with locked := true })
                      pos { h.cells pos with next := (h.cells victim).next }) := by
                  refine good_set_cell _ pos _ g1.1 g1.2.1 ?_ ?_ ?_ ?_
                  · intro hge
                    simp only [set_cell] at hge
                    exact ⟨hpl, (hwf.1 pos hge).2⟩
                  · intro hd
                    simp only at hd
                    exact absurd (hinv pos hd) (by simp [hpl])
                  · intro j hj
                    simp only [set_cell] at hj ⊢
                    exact hwf.2 victim j hj
                  · intro hd
                    rw [h1pos] at hd
                    exact absurd (hinv pos hd) (by simp [hpl])
                have h2v : (set_cell (set_cell h victim
                    { h.cells victim with locked := true }) pos
                    { h.cells pos with next := (h.cells victim).next }).cells victim =
                    { h.cells victim with locked := true } := by
                  simp [set_cell, Ne.symm hpv]
                have g3 : Good (set_cell (set_cell h victim
                    { h.cells victim with locked := true }) pos
                    { h.cells pos with next := (h.cells victim).next })
                    (set_cell (set_cell (set_cell h victim
                      { h.cells victim with locked := true }) pos
                      { h.cells pos with next := (h.cells victim).next }) victim
                      { (set_cell (set_cell h victim
                        { h.cells victim with locked := true }) pos
                        { h.cells pos with next := (h.cells victim).next }).cells victim
                        with deleted := true }) := by
                  refine good_set_cell _ victim _ g2.1 g2.2.1 ?_ ?_ ?_ ?_
                  · intro hge
                    simp only [set_cell] at hge
                    omega
                  · intro _
                    rw [h2v]
                  · intro j hj
                    rw [h2v] at hj
                    simp only at hj
                    simp only [set_cell]
                    exact hwf.2 victim j hj
                  · intro _
                    rw [h2v]
                    exact ⟨rfl, rfl⟩
                exact good_trans (good_trans g1 g2) g3
              · simp only [if_neg houter]
                have h1v : (set_cell h victim
                    { h.cells victim with locked := true }).cells victim =
                    { h.cells victim with locked := true } := by
                  simp [set_cell]
                have g2 : Good (set_cell h victim { h.cells victim with locked := true })
                    (set_cell (set_cell h victim { h.cells victim with locked := true })
                      victim { (set_cell h victim
                        { h.cells victim with locked := true }).cells victim
                        with locked := false }) := by
                  refine good_set_cell _ victim _ g1.1 g1.2.1 ?_ ?_ ?_ ?_
                  · intro hge
                    simp only [set_cell] at hge
                    omega
                  · intro hd
                    rw [h1v] at hd
                    simp only at hd
                    rw [hvd] at hd
                    exact absurd hd (by decide)
                  · intro j hj
                    rw [h1v] at hj
                    simp only at hj
                    simp only [set_cell]
                    exact hwf.2 victim j hj
                  · intro hd
                    rw [h1v] at hd
                    simp only at hd
                    rw [hvd] at hd
                    exact absurd hd (by decide)
                exact good_trans g1 g2

theorem iteru_good {T : Type} (os : List WOracle) (h : Heap T) (id : Nat) (v : T)
    (hwf : WF h) (hinv : DeletedLocked h) :
    Good h (iter_update os h id v).2 := by
  induction os generalizing h with
  | nil => exact good_refl h hwf hinv
  | cons o os ih =>
    simp only [iter_update]
    by_cases hd : (h.cells id).deleted
    · simp only [if_pos hd]
      exact good_refl h hwf hinv
    · simp only [if_neg hd]
      have g1 := iterw_good h id v o hwf hinv
      rcases hm : iter_update_weak h id v o with ⟨b, h1⟩
      rw [hm] at g1
      cases b
      · exact good_trans g1 (ih h1 g1.1 g1.2.1)
      · exact g1

theorem pop_good {T : Type} (os : List (WOracle × WOracle)) (h : Heap T) (head : Nat)
    (hwf : WF h) (hinv : DeletedLocked h) :
    Good h (pop_front os h head).2 := by
  induction os generalizing h with
  | nil => exact good_refl h hwf hinv
  | cons o os ih =>
    simp only [pop_front]
    by_cases he : is_empty h head
    · simp only [if_pos he]
      exact good_refl h hwf hinv
    · simp only [if_neg he]
      have g1 := erase_good h head o.1 o.2 hwf hinv
      rcases hm : erase_after_weak h head o.1 o.2 with ⟨r, h1⟩
      rw [hm] at g1
      cases r
      · exact good_trans g1 (ih h1 g1.1 g1.2.1)
      · exact g1

theorem op_good {T : Type} (h h2 : Heap T) (hwf : WF h) (hinv : DeletedLocked h)
    (hop : OpStep h h2) : Good h h2 := by
  cases hop with
  | push head v o => exact insert_good h head v o hwf hinv
  | insert pos v o => exact insert_good h pos v o hwf hinv
  | erase pos o1 o2 => exact erase_good h pos o1 o2 hwf hinv
  | iter_upd_weak id v o => exact iterw_good h id v o hwf hinv
  | iter_upd os id v => exact iteru_good os h id v hwf hinv
  | pop os head => exact pop_good os h head hwf hinv

theorem evolves_good {T : Type} (h h2 : Heap T) (hwf : WF h) (hinv : DeletedLocked h)
    (he : Evolves h h2) : Good h h2 := by
  induction he with
  | refl => exact good_refl h hwf hinv
  | step hb hc heb hop ih =>
    exact good_trans ih (op_good hb hc ih.1 ih.2.1 hop)

/-- C8: starting from a well-formed heap satisfying `deleted ⇒ locked`,
any sequence of list operations (`push_front`, `insert_after_weak`,
`erase_after_weak`, `pop_front`, iterator `update` / `update_weak`)
preserves `deleted ⇒ locked`, and every node once tombstoned stays
tombstoned with its `locked` flag never reset. -/
theorem deleted_locked_invariant {T : Type} (h h2 : Heap T) (hwf : WF h)
    (hinv : DeletedLocked h) (he : Evolves h h2) :
    DeletedLocked h2 ∧ ∀ n, (h.cells n).deleted = true →
      (h2.cells n).deleted = true ∧ (h2.cells n).locked = true := by
  have g := evolves_good h h2 hwf hinv he
  exact ⟨g.2.1, g.2.2⟩

/-- Witness for C8: a head sentinel pointing at a tombstoned (and locked)
node; after a committing `insert_after_weak` at the head, the tombstoned
node is still deleted and locked. -/
theorem deleted_locked_invariant_witness :
    ((insert_after_weak
        (⟨fun i => if i = 0 then ⟨false, false, 0, some 1⟩
          else if i = 1 then ⟨true, true, 5, none⟩
          else ⟨false, false, 0, none⟩, 2⟩ : Heap Nat) 0 9 ⟨true, true⟩).2.cells 1).deleted =
      true ∧
    ((insert_after_weak
        (⟨fun i => if i = 0 then ⟨false, false, 0, some 1⟩
          else if i = 1 then ⟨true, true, 5, none⟩
          else ⟨false, false, 0, none⟩, 2⟩ : Heap Nat) 0 9 ⟨true, true⟩).2.cells 1).locked =
      true := by
  have hwf : WF (⟨fun i => if i = 0 then ⟨false, false, 0, some 1⟩
      else if i = 1 then ⟨true, true, 5, none⟩
      else ⟨false, false, 0, none⟩, 2⟩ : Heap Nat) := by
    constructor
    · intro id hid
      have hid2 : 2 ≤ id := hid
      have h0 : id ≠ 0 := by omega
      have h1 : id ≠ 1 := by omega
      simp [h0, h1]
    · intro id j hj
      by_cases h0 : id = 0
      · subst h0
        simp at hj
        show j < 2
        omega
      · by_cases h1 : id = 1
        · subst h1
          simp at hj
        · simp [h0, h1] at hj
  have hinv : DeletedLocked (⟨fun i => if i = 0 then ⟨false, false, 0, some 1⟩
      else if i = 1 then ⟨true, true, 5, none⟩
      else ⟨false, false, 0, none⟩, 2⟩ : Heap Nat) := by
    intro id hd
    by_cases h0 : id = 0
    · simp [h0] at hd
    · by_cases h1 : id = 1
      · simp [h0, h1]
      · simp [h0, h1] at hd
  have hres := deleted_locked_invariant _ _ hwf hinv
    (Evolves.step _ _ _ (Evolves.refl _)
      (OpStep.insert _ 0 9 ⟨true, true⟩))
  exact hres.2 1 (by decide)

end AtomicList
